import Mathlib

/-!
Verification of the glyph-table / color-utility core of the `pushfoo/arcade`
repository against its natural-language specification.

Shallow embedding conventions:
* Python `str` values are modelled as `List Nat` of Unicode code points
  (`PyStr`); `pyStr` converts a Lean string literal for concrete inputs.
* Python `dict` values are modelled as insertion-ordered association lists
  with unique keys; `dictSet` overwrites in place and appends new keys at
  the end, exactly like CPython dicts.
* Fallible Python code returns `Except PyError`; the error constructors
  mirror the Python exception classes raised by the source
  (`ValueError`, `TypeError`, `IndexError`, `RuntimeError`).
* Machine-external collaborators (the font rasterizer backend and the
  spritesheet slicer) are parameters of the embedded functions.
-/

namespace Arcade

/-- Python exception kinds raised by the embedded code. -/
inductive PyError where
  | valueError
  | typeError
  | indexError
  | runtimeError
  deriving DecidableEq, Repr

/-- A Python string, as its list of Unicode code points. -/
abbrev PyStr := List Nat

/-- Convert a Lean string literal to its code-point list, for concrete inputs. -/
def pyStr (s : String) : PyStr := s.data.map Char.toNat

/-- Lookup in an insertion-ordered association list (CPython dict model). -/
def dictLookup {α : Type} : List (Nat × α) → Nat → Option α
  | [], _ => none
  | (k, v) :: rest, key => if k = key then some v else dictLookup rest key

/-- Key-membership test for the dict model, as CPython `key in d`. -/
def dictContains {α : Type} (t : List (Nat × α)) (k : Nat) : Bool :=
  (dictLookup t k).isSome

/-- CPython `d[key] = val`: overwrite in place if the key exists (preserving
its position in insertion order), otherwise append the new pair at the end. -/
def dictSet {α : Type} : List (Nat × α) → Nat → α → List (Nat × α)
  | [], key, val => [(key, val)]
  | (k, v) :: rest, key, val =>
    if k = key then (k, val) :: rest else (k, v) :: dictSet rest key val

theorem dictLookup_dictSet_self {α : Type} (t : List (Nat × α)) (k : Nat) (v : α) :
    dictLookup (dictSet t k v) k = some v := by
  induction t with
  | nil => simp [dictSet, dictLookup]
  | cons p rest ih =>
    obtain ⟨k', v'⟩ := p
    by_cases h : k' = k <;> simp [dictSet, dictLookup, h, ih]

theorem dictLookup_dictSet_ne {α : Type} (t : List (Nat × α)) (k k' : Nat) (v : α)
    (h : k' ≠ k) : dictLookup (dictSet t k v) k' = dictLookup t k' := by
  have h2 : ¬ k = k' := fun hh => h hh.symm
  induction t with
  | nil => simp [dictSet, dictLookup, h2]
  | cons p rest ih =>
    obtain ⟨k0, v0⟩ := p
    by_cases h0 : k0 = k
    · subst h0
      simp [dictSet, dictLookup, h2]
    · by_cases h1 : k0 = k'
      · subst h1
        simp [dictSet, dictLookup, h2, h0]
      · simp [dictSet, dictLookup, h0, h1, ih]

theorem dictSet_keys_of_contains {α : Type} (t : List (Nat × α)) (k : Nat) (v : α)
    (h : dictContains t k = true) :
    (dictSet t k v).map Prod.fst = t.map Prod.fst := by
  induction t with
  | nil => simp [dictContains, dictLookup] at h
  | cons p rest ih =>
    obtain ⟨k0, v0⟩ := p
    by_cases h0 : k0 = k
    · simp [dictSet, h0]
    · simp only [dictContains, dictLookup, h0, if_false] at h
      simp [dictSet, h0, ih h]

theorem dictSet_of_not_contains {α : Type} (t : List (Nat × α)) (k : Nat) (v : α)
    (h : dictContains t k = false) : dictSet t k v = t ++ [(k, v)] := by
  induction t with
  | nil => simp [dictSet]
  | cons p rest ih =>
    obtain ⟨k0, v0⟩ := p
    by_cases h0 : k0 = k
    · subst h0
      simp [dictContains, dictLookup] at h
    · simp only [dictContains, dictLookup, h0, if_false] at h
      simp [dictSet, h0, ih h]

theorem dictContains_iff_mem_keys {α : Type} (t : List (Nat × α)) (k : Nat) :
    dictContains t k = true ↔ k ∈ t.map Prod.fst := by
  induction t with
  | nil => simp [dictContains, dictLookup]
  | cons p rest ih =>
    obtain ⟨k0, v0⟩ := p
    by_cases h0 : k0 = k
    · simp [dictContains, dictLookup, h0]
    · have h1 : ¬ k = k0 := fun hh => h0 hh.symm
      simp [dictContains, dictLookup, h0, h1, ← ih, dictContains]

namespace DrawingSupport

/-!
Embedding of `src/arcade/drawing_support.py`.

`get_points_for_thick_line` operates on Python floats; the embedding
idealizes them as rationals and takes the square-root routine as an
explicit parameter `sqrtFn` (the code only branches on whether the
computed length is zero, so theorems carry the hypothesis that `sqrtFn`
vanishes exactly at zero, which `math.sqrt` satisfies on nonnegative
reals).
-/

/-- Source `get_points_for_thick_line` (drawing_support.py lines 11-38),
with Python float arithmetic idealized over `ℚ` and `math.sqrt` passed in
as `sqrtFn`. The return order `(r1, r2, r4, r3)` is the source's. -/
def get_points_for_thick_line (sqrtFn : ℚ → ℚ)
    (start_x start_y end_x end_y line_width : ℚ) :
    (ℚ × ℚ) × (ℚ × ℚ) × (ℚ × ℚ) × (ℚ × ℚ) :=
  let vector_x := start_x - end_x
  let vector_y := start_y - end_y
  let perpendicular_x := vector_y
  let perpendicular_y := -vector_x
  let length := sqrtFn (vector_x * vector_x + vector_y * vector_y)
  let normal_x := if length = 0 then 1 else perpendicular_x / length
  let normal_y := if length = 0 then 1 else perpendicular_y / length
  let r1_x := start_x + normal_x * line_width / 2
  let r1_y := start_y + normal_y * line_width / 2
  let r2_x := start_x - normal_x * line_width / 2
  let r2_y := start_y - normal_y * line_width / 2
  let r3_x := end_x + normal_x * line_width / 2
  let r3_y := end_y + normal_y * line_width / 2
  let r4_x := end_x - normal_x * line_width / 2
  let r4_y := end_y - normal_y * line_width / 2
  ((r1_x, r1_y), (r2_x, r2_y), (r4_x, r4_y), (r3_x, r3_y))

/-- Source `get_four_byte_color` (drawing_support.py lines 41-65). The input
tuple is modelled as a list of integer channels of arbitrary length. -/
def get_four_byte_color (color : List Int) : Except PyError (List Int) :=
  if color.length = 4 then .ok color
  else
    match color with
    | [r, g, b] => .ok [r, g, b, 255]
    | _ => .error .valueError

/-- Python whitespace recognized by `int(str, 16)` when stripping the
argument (ASCII subset; the module never feeds it non-ASCII text). -/
def isPySpace (c : Nat) : Bool :=
  c = 32 || c = 9 || c = 10 || c = 13 || c = 11 || c = 12

/-- Value of a single hex digit accepted by Python `int(·, 16)`:
`0-9`, `a-f`, `A-F`. -/
def hexDigitVal? (c : Nat) : Option Nat :=
  if 48 ≤ c ∧ c ≤ 57 then some (c - 48)
  else if 97 ≤ c ∧ c ≤ 102 then some (c - 87)
  else if 65 ≤ c ∧ c ≤ 70 then some (c - 55)
  else none

/-- Value of a run of hex digits (most significant first); `none` if any
character is not a hex digit. The empty run yields `some 0` and is
rejected separately by `pyInt16`. -/
def hexStrVal? (s : PyStr) : Option Nat :=
  s.foldl
    (fun acc c =>
      match acc, hexDigitVal? c with
      | some a, some v => some (16 * a + v)
      | _, _ => none)
    (some 0)

/-- Strip Python whitespace from both ends, as `int()` does to its string
argument. -/
def stripPySpace (s : PyStr) : PyStr :=
  ((s.dropWhile isPySpace).reverse.dropWhile isPySpace).reverse

/-- Model of Python `int(s, 16)`: optional surrounding whitespace, an
optional single `+`/`-` sign, then a nonempty run of hex digits. The
`0x` prefix and `_` separators Python also accepts are omitted: the
module only ever parses two-character slices, where neither can occur in
a string this model rejects. Returns `none` where Python raises
`ValueError`. -/
def pyInt16 (s : PyStr) : Option Int :=
  match stripPySpace s with
  | [] => none
  | c :: rest =>
    let core := if c = 43 ∨ c = 45 then rest else c :: rest
    let sign : Int := if c = 45 then -1 else 1
    if core = [] then none
    else
      match hexStrVal? core with
      | some v => some (sign * (v : Int))
      | none => none

/-- Python `str.lstrip("#")`: remove every leading `#`. -/
def lstripHash (s : PyStr) : PyStr := s.dropWhile (fun c => c = 35)

/-- The `"".join(i * 2 for i in code)` digit-duplication step. -/
def dupEach : PyStr → PyStr
  | [] => []
  | c :: rest => c :: c :: dupEach rest

/-- Source `color_from_hex_string` (drawing_support.py lines 90-115):
strip leading `#`, duplicate each character when at most 4 remain, then
parse 6 or 8 hex characters into byte channels; any other length, or a
channel slice `int(·, 16)` rejects, raises `ValueError`. -/
def color_from_hex_string (s : PyStr) : Except PyError (Int × Int × Int × Int) :=
  let code0 := lstripHash s
  let code := if code0.length ≤ 4 then dupEach code0 else code0
  if code.length = 6 then
    match pyInt16 (code.take 2), pyInt16 ((code.drop 2).take 2),
        pyInt16 ((code.drop 4).take 2) with
    | some r, some g, some b => .ok (r, g, b, 255)
    | _, _, _ => .error .valueError
  else if code.length = 8 then
    match pyInt16 (code.take 2), pyInt16 ((code.drop 2).take 2),
        pyInt16 ((code.drop 4).take 2), pyInt16 ((code.drop 6).take 2) with
    | some r, some g, some b, some a => .ok (r, g, b, a)
    | _, _, _, _ => .error .valueError
  else .error .valueError

/-- Integer value of a hex-digit character, defaulting to 0; used only to
state theorems whose hypotheses force the digit to be genuine. -/
def hexVal (c : Nat) : Int := ((hexDigitVal? c).getD 0 : Nat)

theorem hexDigit_plain (c v : Nat) (h : hexDigitVal? c = some v) :
    isPySpace c = false ∧ c ≠ 43 ∧ c ≠ 45 := by
  unfold hexDigitVal? at h
  split_ifs at h with h1 h2 h3 <;> simp [isPySpace] <;> omega

theorem hexVal_eq (c v : Nat) (h : hexDigitVal? c = some v) : hexVal c = (v : Int) := by
  simp [hexVal, h]

theorem pyInt16_two_hex (a b va vb : Nat) (ha : hexDigitVal? a = some va)
    (hb : hexDigitVal? b = some vb) :
    pyInt16 [a, b] = some (16 * (va : Int) + (vb : Int)) := by
  obtain ⟨hsa, ha43, ha45⟩ := hexDigit_plain a va ha
  obtain ⟨hsb, hb43, hb45⟩ := hexDigit_plain b vb hb
  have e3 : stripPySpace [a, b] = [a, b] := by
    simp [stripPySpace, List.dropWhile, hsa, hsb]
  have hc : ¬ (a = 43 ∨ a = 45) := by omega
  simp only [pyInt16, e3]
  simp [hc, ha43, ha45, hexStrVal?, ha, hb]

/-- Componentwise equality for the quadruple of corner points returned by
the thick-line helper. -/
theorem quad_points_ext {a1 a2 b1 b2 c1 c2 d1 d2 a1' a2' b1' b2' c1' c2' d1' d2' : ℚ}
    (h1 : a1 = a1') (h2 : a2 = a2') (h3 : b1 = b1') (h4 : b2 = b2')
    (h5 : c1 = c1') (h6 : c2 = c2') (h7 : d1 = d1') (h8 : d2 = d2') :
    ((a1, a2), (b1, b2), (c1, c2), (d1, d2)) =
      ((a1', a2'), (b1', b2'), (c1', c2'), (d1', d2')) := by
  rw [h1, h2, h3, h4, h5, h6, h7, h8]

theorem dupEach_length (s : PyStr) : (dupEach s).length = 2 * s.length := by
  induction s with
  | nil => rfl
  | cons c rest ih => simp [dupEach, ih]; omega

/-- C5: `get_points_for_thick_line` returns the four corners in the fixed
winding order (start+normal, start−normal, end−normal, end+normal), where
the normal is the normalized perpendicular of the direction vector scaled
by half the width, and a zero-length line falls back to the unnormalized
direction (1, 1). The hypothesis states that the square-root routine
vanishes exactly at zero, which `math.sqrt` satisfies. -/
theorem get_points_for_thick_line_winding (sqrtFn : ℚ → ℚ)
    (sx sy ex ey w : ℚ) (hsq : ∀ x : ℚ, sqrtFn x = 0 ↔ x = 0) :
    get_points_for_thick_line sqrtFn sx sy ex ey w =
      (let len : ℚ := sqrtFn ((sx - ex) * (sx - ex) + (sy - ey) * (sy - ey))
       let nx : ℚ := if (sx, sy) = (ex, ey) then w / 2 else (sy - ey) / len * (w / 2)
       let ny : ℚ := if (sx, sy) = (ex, ey) then w / 2 else -(sx - ex) / len * (w / 2)
       ((sx + nx, sy + ny), (sx - nx, sy - ny), (ex - nx, ey - ny), (ex + nx, ey + ny))) := by
  by_cases hse : (sx, sy) = (ex, ey)
  · obtain ⟨hx, hy⟩ := Prod.mk.injEq .. ▸ hse
    subst hx; subst hy
    have h0 : sqrtFn ((sx - sx) * (sx - sx) + (sy - sy) * (sy - sy)) = 0 := by
      have : (sx - sx) * (sx - sx) + (sy - sy) * (sy - sy) = 0 := by ring
      rw [this]; exact (hsq 0).mpr rfl
    simp only [get_points_for_thick_line, h0, if_true, if_pos rfl, eq_self_iff_true]
    exact quad_points_ext (by ring) (by ring) (by ring) (by ring)
      (by ring) (by ring) (by ring) (by ring)
  · have hne : ¬ ((sx - ex) * (sx - ex) + (sy - ey) * (sy - ey) = 0) := by
      intro hzero
      have h1 : (sx - ex) * (sx - ex) = 0 ∧ (sy - ey) * (sy - ey) = 0 :=
        (add_eq_zero_iff_of_nonneg (mul_self_nonneg _) (mul_self_nonneg _)).mp hzero
      have hxe : sx = ex := by
        have := mul_self_eq_zero.mp h1.1; linarith
      have hye : sy = ey := by
        have := mul_self_eq_zero.mp h1.2; linarith
      exact hse (by rw [hxe, hye])
    have hlen : ¬ (sqrtFn ((sx - ex) * (sx - ex) + (sy - ey) * (sy - ey)) = 0) :=
      fun h => hne ((hsq _).mp h)
    simp only [get_points_for_thick_line, hlen, if_false, if_neg hse]
    exact quad_points_ext (by ring) (by ring) (by ring) (by ring)
      (by ring) (by ring) (by ring) (by ring)

/-- Witness for C5 at a zero-length line: start = end = (1, 2), width 6,
with the identity standing in for a square root that vanishes exactly at
zero. -/
theorem get_points_for_thick_line_winding_witness :
    (∀ x : ℚ, id x = 0 ↔ x = 0) ∧
      get_points_for_thick_line id 1 2 1 2 6 =
        ((4, 5), (-2, -1), (-2, -1), (4, 5)) := by
  refine ⟨fun x => Iff.rfl, ?_⟩
  rw [get_points_for_thick_line_winding id 1 2 1 2 6 (fun x => Iff.rfl)]
  norm_num

/-- C7: `get_four_byte_color` returns 4-channel colors unchanged, appends
alpha 255 to 3-channel colors, and raises `ValueError` for every other
length. -/
theorem get_four_byte_color_spec :
    (∀ c : List Int, c.length = 4 → get_four_byte_color c = .ok c) ∧
      (∀ c : List Int, c.length = 3 → get_four_byte_color c = .ok (c ++ [255])) ∧
      (∀ c : List Int, c.length ≠ 3 → c.length ≠ 4 →
        get_four_byte_color c = .error .valueError) := by
  refine ⟨?_, ?_, ?_⟩
  · intro c h
    simp [get_four_byte_color, h]
  · intro c h
    obtain ⟨r, g, b, rfl⟩ := List.length_eq_three.mp h
    simp [get_four_byte_color]
  · intro c h3 h4
    rcases c with _ | ⟨r, _ | ⟨g, _ | ⟨b, _ | ⟨x, rest⟩⟩⟩⟩
    · simp [get_four_byte_color]
    · simp [get_four_byte_color]
    · simp [get_four_byte_color]
    · exact absurd rfl h3
    · have h4' : ¬ (rest.length + 1 + 1 + 1 + 1 = 4) := by
        simp only [List.length_cons] at h4
        omega
      simp only [get_four_byte_color, List.length_cons]
      rw [if_neg h4']

/-- Witness for C7: the 3-channel color (10, 20, 30) gains alpha 255. -/
theorem get_four_byte_color_spec_witness :
    ([(10 : Int), 20, 30].length = 3) ∧
      get_four_byte_color [10, 20, 30] = .ok [10, 20, 30, 255] := by
  exact ⟨rfl, get_four_byte_color_spec.2.1 [10, 20, 30] rfl⟩

/-- C2 counterexample: the input `" 1ffff"` contains a space, which is not
a hex digit, yet `color_from_hex_string` accepts it, because Python
`int(·, 16)` strips whitespace inside each two-character channel slice.
So the claim that any input containing non-hex characters fails is false. -/
theorem color_from_hex_string_space_accepted :
    hexDigitVal? 32 = none ∧
      color_from_hex_string (pyStr " 1ffff") = .ok (1, 255, 255, 255) := by
  constructor
  · rfl
  · rfl

/-- C2 amended: `color_from_hex_string` raises `ValueError` for every input
whose character count after stripping leading `#` is not 3, 4, 6, or 8; in
particular `"#12"` fails. (The original claim's further assertion that all
inputs containing non-hex characters fail is refuted by
`color_from_hex_string_space_accepted`.) -/
theorem color_from_hex_string_bad_length (s : PyStr)
    (h3 : (lstripHash s).length ≠ 3) (h4 : (lstripHash s).length ≠ 4)
    (h6 : (lstripHash s).length ≠ 6) (h8 : (lstripHash s).length ≠ 8) :
    color_from_hex_string s = .error .valueError := by
  simp only [color_from_hex_string]
  by_cases hle : (lstripHash s).length ≤ 4
  · rw [if_pos hle]
    have hlen := dupEach_length (lstripHash s)
    rw [if_neg (by omega), if_neg (by omega)]
  · rw [if_neg hle]
    rw [if_neg h6, if_neg h8]

/-- Witness for the amended C2 at the spec's own example input `"#12"`
(2 characters after stripping the `#`). -/
theorem color_from_hex_string_bad_length_witness :
    (lstripHash (pyStr "#12")).length = 2 ∧
      color_from_hex_string (pyStr "#12") = .error .valueError := by
  refine ⟨rfl, ?_⟩
  exact color_from_hex_string_bad_length (pyStr "#12")
    (by decide) (by decide) (by decide) (by decide)

/-- C6: for hex-digit inputs (after stripping leading `#`), 3- and 4-digit
shorthands are expanded by duplicating each digit (each channel becomes 17
times the digit value), 6-digit forms return the three parsed byte channels
with alpha 255, and 8-digit forms return all four parsed byte channels; in
particular `"#fff"` parses to (255, 255, 255, 255) and `"#ff00ff00"` to
(255, 0, 255, 0). -/
theorem color_from_hex_string_forms :
    (∀ s : PyStr, (∀ c ∈ lstripHash s, (hexDigitVal? c).isSome = true) →
      (∀ a b c, lstripHash s = [a, b, c] →
        color_from_hex_string s =
          .ok (17 * hexVal a, 17 * hexVal b, 17 * hexVal c, 255)) ∧
      (∀ a b c d, lstripHash s = [a, b, c, d] →
        color_from_hex_string s =
          .ok (17 * hexVal a, 17 * hexVal b, 17 * hexVal c, 17 * hexVal d)) ∧
      (∀ a b c d e f, lstripHash s = [a, b, c, d, e, f] →
        color_from_hex_string s =
          .ok (16 * hexVal a + hexVal b, 16 * hexVal c + hexVal d,
            16 * hexVal e + hexVal f, 255)) ∧
      (∀ a b c d e f g h, lstripHash s = [a, b, c, d, e, f, g, h] →
        color_from_hex_string s =
          .ok (16 * hexVal a + hexVal b, 16 * hexVal c + hexVal d,
            16 * hexVal e + hexVal f, 16 * hexVal g + hexVal h))) ∧
    color_from_hex_string (pyStr "#fff") = .ok (255, 255, 255, 255) ∧
    color_from_hex_string (pyStr "#ff00ff00") = .ok (255, 0, 255, 0) := by
  refine ⟨?_, rfl, rfl⟩
  intro s hall
  refine ⟨?_, ?_, ?_, ?_⟩
  · intro a b c heq
    obtain ⟨va, hva⟩ := Option.isSome_iff_exists.mp (hall a (by rw [heq]; simp))
    obtain ⟨vb, hvb⟩ := Option.isSome_iff_exists.mp (hall b (by rw [heq]; simp))
    obtain ⟨vc, hvc⟩ := Option.isSome_iff_exists.mp (hall c (by rw [heq]; simp))
    simp [color_from_hex_string, heq, dupEach,
      pyInt16_two_hex a a va va hva hva, pyInt16_two_hex b b vb vb hvb hvb,
      pyInt16_two_hex c c vc vc hvc hvc,
      hexVal_eq a va hva, hexVal_eq b vb hvb, hexVal_eq c vc hvc]
    refine ⟨by ring, by ring, by ring⟩
  · intro a b c d heq
    obtain ⟨va, hva⟩ := Option.isSome_iff_exists.mp (hall a (by rw [heq]; simp))
    obtain ⟨vb, hvb⟩ := Option.isSome_iff_exists.mp (hall b (by rw [heq]; simp))
    obtain ⟨vc, hvc⟩ := Option.isSome_iff_exists.mp (hall c (by rw [heq]; simp))
    obtain ⟨vd, hvd⟩ := Option.isSome_iff_exists.mp (hall d (by rw [heq]; simp))
    simp [color_from_hex_string, heq, dupEach,
      pyInt16_two_hex a a va va hva hva, pyInt16_two_hex b b vb vb hvb hvb,
      pyInt16_two_hex c c vc vc hvc hvc, pyInt16_two_hex d d vd vd hvd hvd,
      hexVal_eq a va hva, hexVal_eq b vb hvb, hexVal_eq c vc hvc,
      hexVal_eq d vd hvd]
    refine ⟨by ring, by ring, by ring, by ring⟩
  · intro a b c d e f heq
    obtain ⟨va, hva⟩ := Option.isSome_iff_exists.mp (hall a (by rw [heq]; simp))
    obtain ⟨vb, hvb⟩ := Option.isSome_iff_exists.mp (hall b (by rw [heq]; simp))
    obtain ⟨vc, hvc⟩ := Option.isSome_iff_exists.mp (hall c (by rw [heq]; simp))
    obtain ⟨vd, hvd⟩ := Option.isSome_iff_exists.mp (hall d (by rw [heq]; simp))
    obtain ⟨ve, hve⟩ := Option.isSome_iff_exists.mp (hall e (by rw [heq]; simp))
    obtain ⟨vf, hvf⟩ := Option.isSome_iff_exists.mp (hall f (by rw [heq]; simp))
    simp [color_from_hex_string, heq,
      pyInt16_two_hex a b va vb hva hvb, pyInt16_two_hex c d vc vd hvc hvd,
      pyInt16_two_hex e f ve vf hve hvf,
      hexVal_eq a va hva, hexVal_eq b vb hvb, hexVal_eq c vc hvc,
      hexVal_eq d vd hvd, hexVal_eq e ve hve, hexVal_eq f vf hvf]
  · intro a b c d e f g h heq
    obtain ⟨va, hva⟩ := Option.isSome_iff_exists.mp (hall a (by rw [heq]; simp))
    obtain ⟨vb, hvb⟩ := Option.isSome_iff_exists.mp (hall b (by rw [heq]; simp))
    obtain ⟨vc, hvc⟩ := Option.isSome_iff_exists.mp (hall c (by rw [heq]; simp))
    obtain ⟨vd, hvd⟩ := Option.isSome_iff_exists.mp (hall d (by rw [heq]; simp))
    obtain ⟨ve, hve⟩ := Option.isSome_iff_exists.mp (hall e (by rw [heq]; simp))
    obtain ⟨vf, hvf⟩ := Option.isSome_iff_exists.mp (hall f (by rw [heq]; simp))
    obtain ⟨vg, hvg⟩ := Option.isSome_iff_exists.mp (hall g (by rw [heq]; simp))
    obtain ⟨vh, hvh⟩ := Option.isSome_iff_exists.mp (hall h (by rw [heq]; simp))
    simp [color_from_hex_string, heq,
      pyInt16_two_hex a b va vb hva hvb, pyInt16_two_hex c d vc vd hvc hvd,
      pyInt16_two_hex e f ve vf hve hvf, pyInt16_two_hex g h vg vh hvg hvh,
      hexVal_eq a va hva, hexVal_eq b vb hvb, hexVal_eq c vc hvc,
      hexVal_eq d vd hvd, hexVal_eq e ve hve, hexVal_eq f vf hvf,
      hexVal_eq g vg hvg, hexVal_eq h vh hvh]

/-- Witness for C6 at the 3-digit shorthand `"0a0"`: each digit is
duplicated, so the green channel is 17 times the digit value of `a`. -/
theorem color_from_hex_string_forms_witness :
    (∀ c ∈ lstripHash (pyStr "0a0"), (hexDigitVal? c).isSome = true) ∧
      color_from_hex_string (pyStr "0a0") =
        .ok (17 * hexVal 48, 17 * hexVal 97, 17 * hexVal 48, 255) :=
  ⟨by decide, (color_from_hex_string_forms.1 (pyStr "0a0") (by decide)).1 48 97 48 rfl⟩

end DrawingSupport

/-!
Shared helpers for the glyph-table modules. Characters are code points
(`Nat`); `str.isupper`/`str.lower` are modelled exactly on the Latin-1
range 0..255, the glyph domain of these modules (their default selection
`ASCII_WITH_LATIN_1` is `chr(0)..chr(255)`, and Latin-1 is closed under
`str.lower`, each image a single character). Beyond Latin-1 the lowercase
form of an uppercase character can be several characters (e.g. U+0130
lowers to a two-character string), which a single-code-point key cannot
represent, so theorems about case aliasing are stated for tables whose
keys lie in Latin-1.
-/

/-- Python `ch.isupper()` for a single character: exact on Latin-1
(`A`-`Z` and `À`-`Þ` except the multiplication sign `×` 0xD7). -/
def pyIsUpper (c : Nat) : Bool :=
  decide ((65 ≤ c ∧ c ≤ 90) ∨ (192 ≤ c ∧ c ≤ 222 ∧ c ≠ 215))

/-- Python `ch.lower()` for a single character: exact on Latin-1, where
every uppercase character lowers by +32 and every other character is
fixed. -/
def pyLower (c : Nat) : Nat :=
  if (65 ≤ c ∧ c ≤ 90) ∨ (192 ≤ c ∧ c ≤ 222 ∧ c ≠ 215) then c + 32 else c

/-- Hex digit character (code point) for a value below 16, lowercase as
Python's `hex` produces. -/
def digitChar16 (k : Nat) : Nat := if k < 10 then 48 + k else 87 + k

/-- Little-endian hex digits, with explicit fuel so the recursion is
structural (the fuel never runs out when it starts at the number itself,
since `n / 16 < n` for positive `n`). -/
def hexRevDigitsAux : Nat → Nat → List Nat
  | _, 0 => []
  | 0, _ + 1 => []
  | fuel + 1, n + 1 => digitChar16 ((n + 1) % 16) :: hexRevDigitsAux fuel ((n + 1) / 16)

/-- Little-endian hex digits of a positive number; empty for zero. -/
def hexRevDigits (n : Nat) : List Nat := hexRevDigitsAux n n

/-- Python `hex(n)` for `n ≥ 0`: `"0x"` followed by the hex digits with no
leading zeros (`hex(0) = "0x0"`). -/
def pyHex (n : Nat) : PyStr :=
  [48, 120] ++ (if n = 0 then [48] else (hexRevDigits n).reverse)

/-- Little-endian decimal digits, with explicit fuel (see
`hexRevDigitsAux`). -/
def decRevDigitsAux : Nat → Nat → List Nat
  | _, 0 => []
  | 0, _ + 1 => []
  | fuel + 1, n + 1 => (48 + (n + 1) % 10) :: decRevDigitsAux fuel ((n + 1) / 10)

/-- Little-endian decimal digits of a positive number; empty for zero. -/
def decRevDigits (n : Nat) : List Nat := decRevDigitsAux n n

/-- Python `str(n)` / `f-string` rendering of a nonnegative integer. -/
def pyDec (n : Nat) : PyStr := if n = 0 then [48] else (decRevDigits n).reverse

/-- The texture name `f-string` of both `render_glyph_texture_from_system_font`
copies: `font_name + "-" + str(font_size) + "-" + hex(ord(glyph))`. -/
def texName (font_name : PyStr) (font_size : Nat) (cp : Nat) : PyStr :=
  font_name ++ [45] ++ pyDec font_size ++ [45] ++ pyHex cp

/-- An `arcade.Texture`: the deterministic name tag plus the opaque raw
image produced by the rasterizer collaborator. -/
structure Texture (α : Type) where
  name : PyStr
  image : α
  deriving DecidableEq, Repr

/-- A possibly-non-string element of a list/tuple glyph selection;
`other` is an arbitrary unsized non-string object. -/
inductive PyObj where
  | str (s : PyStr)
  | other
  deriving DecidableEq, Repr

/-- The duck-typed `GlyphSelection` argument: a string, a list of objects,
a tuple of objects, or some other (rejected) type. -/
inductive PySelection where
  | str (s : PyStr)
  | list (xs : List PyObj)
  | tuple (xs : List PyObj)
  | other
  deriving DecidableEq, Repr

namespace Experimental

/-!
Embedding of `src/arcade/experimental/texture_table.py`; the file
`src/arcade/experimental/gui/glyph_display.py` repeats
`flatten_glyph_selection`, `remap_font_glyph_table_lowercase_to_upper` and
`load_monospace_spritesheet_font` verbatim and adds the font-rendering
builders, so this namespace covers both files.
-/

/-- Python `len(element)` on a selection element: strings have their
length; an unsized non-string object raises `TypeError`. -/
def elemLen : PyObj → Except PyError Nat
  | .str s => .ok s.length
  | .other => .error .typeError

/-- The element-wise isinstance check plus `"".join`: the first non-string
element raises `TypeError`, otherwise the strings are concatenated in
order. -/
def flattenElems : List PyObj → Except PyError PyStr
  | [] => .ok []
  | .str s :: rest => (flattenElems rest).map (fun r => s ++ r)
  | .other :: _ => .error .typeError

/-- The list/tuple branch of `flatten_glyph_selection`: empty selection or
empty first element raises `ValueError`, then all elements must be
strings, then they are joined. -/
def flattenSeq (xs : List PyObj) : Except PyError PyStr :=
  match xs with
  | [] => .error .valueError
  | x :: _ =>
    match elemLen x with
    | .error e => .error e
    | .ok l0 => if l0 < 1 then .error .valueError else flattenElems xs

/-- Source `flatten_glyph_selection` (texture_table.py lines 24-64): reject
non-string/list/tuple selections with `TypeError`, empty selections (or an
empty first element) with `ValueError`, list/tuple elements that are not
strings with `TypeError`; strings pass through, sequences are joined. For
a nonempty string selection, `selection[0]` is a 1-character string, so
its emptiness check never fires. -/
def flatten_glyph_selection : PySelection → Except PyError PyStr
  | .other => .error .typeError
  | .str s => if s.length < 1 then .error .valueError else .ok s
  | .list xs => flattenSeq xs
  | .tuple xs => flattenSeq xs

/-- One pass of CPython dict iteration for the lowercase-aliasing loop:
visits the frozen key order, reads the live value of each visited key, and
overwriting an existing key continues while inserting a previously absent
key raises `RuntimeError` ("dictionary changed size during iteration") at
the next iterator step; since the mutated table is discarded when the
exception propagates, the error is surfaced immediately. The `none`
branch is unreachable because keys are never removed. -/
def remapGo {α : Type} : List Nat → List (Nat × α) → Except PyError (List (Nat × α))
  | [], t => .ok t
  | k :: ks, t =>
    match dictLookup t k with
    | none => remapGo ks t
    | some v =>
      if pyIsUpper k then
        if dictContains t (pyLower k) then remapGo ks (dictSet t (pyLower k) v)
        else .error .runtimeError
      else remapGo ks t

/-- Source `remap_font_glyph_table_lowercase_to_upper` (texture_table.py
lines 67-84): for every uppercase key in iteration order, assign the
key's texture to the lowercase counterpart key, mutating the table during
iteration. -/
def remap_font_glyph_table_lowercase_to_upper {α : Type}
    (glyph_table : List (Nat × α)) : Except PyError (List (Nat × α)) :=
  remapGo (glyph_table.map Prod.fst) glyph_table

/-- Python `enumerate` from a start index. -/
def pyEnumerate {α : Type} (n : Nat) : List α → List (Nat × α)
  | [] => []
  | x :: xs => (n, x) :: pyEnumerate (n + 1) xs

/-- The sprite-assignment loop of `load_monospace_spritesheet_font`:
`texture_table[character] = raw_sheet[index]`, plus the inline lowercase
aliasing when `map_lower_to_upper` is set; an out-of-range sheet index
raises `IndexError`. -/
def assignGo {α : Type} (map_lower_to_upper : Bool) (raw_sheet : List α) :
    List (Nat × Nat) → List (Nat × α) → Except PyError (List (Nat × α))
  | [], t => .ok t
  | (index, character) :: rest, t =>
    match raw_sheet[index]? with
    | none => .error .indexError
    | some tex =>
      let t1 := dictSet t character tex
      let t2 := if map_lower_to_upper && pyIsUpper character
        then dictSet t1 (pyLower character) tex else t1
      assignGo map_lower_to_upper raw_sheet rest t2

/-- Source `load_monospace_spritesheet_font` (texture_table.py lines
87-158). The call to the external slicer `load_spritesheet(file_name,
sprite_width, sprite_height, columns, count, margin)` is modelled by its
result, the parameter `load_spritesheet`; the file/geometry arguments the
source merely forwards to it are folded into that parameter. -/
def load_monospace_spritesheet_font {α : Type}
    (load_spritesheet : Except PyError (List α)) (count : Int)
    (glyph_selection : PySelection) (check_lengths : Bool)
    (map_lower_to_upper : Bool) : Except PyError (List (Nat × α)) :=
  match flatten_glyph_selection glyph_selection with
  | .error e => .error e
  | .ok flat_selection =>
    if check_lengths = true ∧ (flat_selection.length : Int) ≠ count then
      .error .valueError
    else
      match load_spritesheet with
      | .error e => .error e
      | .ok raw_sheet =>
        match assignGo map_lower_to_upper raw_sheet
            (pyEnumerate 0 flat_selection) [] with
        | .error e => .error e
        | .ok texture_table =>
          if map_lower_to_upper then
            remap_font_glyph_table_lowercase_to_upper texture_table
          else .ok texture_table

/-- Source `render_glyph_texture_from_system_font`
(experimental/gui/glyph_display.py lines 162-206): a glyph that is not
exactly one character raises `ValueError` (the isinstance TypeError branch
is absorbed by the `PyStr` typing); otherwise the rasterizer collaborator
`create_raw_text_image` produces the image and the texture is tagged with
the deterministic `texName`. -/
def render_glyph_texture_from_system_font {α : Type}
    (create_raw_text_image : Nat → α) (glyph : PyStr) (font_name : PyStr)
    (font_size : Nat) : Except PyError (Texture α) :=
  match glyph with
  | [c] => .ok ⟨texName font_name font_size c, create_raw_text_image c⟩
  | _ => .error .valueError

/-- The per-character rasterization loop of the font-path builder. -/
def fontLoop {α : Type} (create_raw_text_image : Nat → α) (fn : PyStr) (fs : Nat) :
    List Nat → List (Nat × Texture α) → Except PyError (List (Nat × Texture α))
  | [], t => .ok t
  | ch :: rest, t =>
    match render_glyph_texture_from_system_font create_raw_text_image [ch] fn fs with
    | .error e => .error e
    | .ok tex => fontLoop create_raw_text_image fn fs rest (dictSet t ch tex)

/-- Source `build_glyph_table_from_system_font`
(experimental/gui/glyph_display.py lines 209-247). Faithful to the source:
the `map_lower_to_upper` parameter is accepted but never used in this
build path — no aliasing pass runs. -/
def build_glyph_table_from_system_font {α : Type}
    (create_raw_text_image : Nat → α) (font_name : PyStr) (font_size : Nat)
    (glyph_selection : PySelection) (map_lower_to_upper : Bool) :
    Except PyError (List (Nat × Texture α)) :=
  match flatten_glyph_selection glyph_selection with
  | .error e => .error e
  | .ok flattened_selection =>
    fontLoop create_raw_text_image font_name font_size flattened_selection []

end Experimental

namespace GuiElements

/-!
Embedding of `src/arcade/gui/elements/glyph_display.py`: the code-range
glyph table builder and its per-character renderer (a verbatim copy of
the experimental one).
-/

/-- Source `render_glyph_texture_from_system_font`
(gui/elements/glyph_display.py lines 24-68); same body as the
experimental copy. -/
def render_glyph_texture_from_system_font {α : Type}
    (create_raw_text_image : Nat → α) (glyph : PyStr) (font_name : PyStr)
    (font_size : Nat) : Except PyError (Texture α) :=
  match glyph with
  | [c] => .ok ⟨texName font_name font_size c, create_raw_text_image c⟩
  | _ => .error .valueError

/-- Python `chr`: valid for code points 0..0x10FFFF, `ValueError` beyond
(`chr() arg not in range(0x110000)`). -/
def pyChr (code : Int) : Except PyError Nat :=
  if 0 ≤ code ∧ code < 1114112 then .ok code.toNat else .error .valueError

/-- Python `range(start, stop)` as a list of integers. -/
def intRange (start stop : Int) : List Int :=
  (List.range (stop - start).toNat).map (fun (i : Nat) => start + (i : Int))

/-- The build loop `for char in (chr(code) for code in range(...))`:
`chr` is evaluated lazily per iteration, so its `ValueError` surfaces
mid-loop. -/
def rangeLoop {α : Type} (create_raw_text_image : Nat → α) (fn : PyStr) (fs : Nat) :
    List Int → List (Nat × Texture α) → Except PyError (List (Nat × Texture α))
  | [], t => .ok t
  | code :: rest, t =>
    match pyChr code with
    | .error e => .error e
    | .ok ch =>
      match render_glyph_texture_from_system_font create_raw_text_image [ch] fn fs with
      | .error e => .error e
      | .ok tex => rangeLoop create_raw_text_image fn fs rest (dictSet t ch tex)

/-- Source `build_glyph_table_from_system_font`
(gui/elements/glyph_display.py lines 71-129): a code range that is not a
two-element list/tuple of integers raises `TypeError` (the non-integer
case is absorbed by the `List Int` typing), a negative start or
`stop ≤ start` raises `ValueError`, and otherwise each code point in
`[start, stop)` is rasterized and keyed by its character. -/
def build_glyph_table_from_system_font {α : Type}
    (create_raw_text_image : Nat → α) (font_name : PyStr) (font_size : Nat)
    (code_range : List Int) : Except PyError (List (Nat × Texture α)) :=
  match code_range with
  | [range_start, range_stop] =>
    if range_start < 0 then .error .valueError
    else if range_stop ≤ range_start then .error .valueError
    else
      rangeLoop create_raw_text_image font_name font_size
        (intRange range_start range_stop) []
  | _ => .error .typeError

end GuiElements

namespace Experimental

theorem remapGo_keys {α : Type} (ks : List Nat) (t t' : List (Nat × α))
    (h : remapGo ks t = .ok t') : t'.map Prod.fst = t.map Prod.fst := by
  induction ks generalizing t with
  | nil =>
    simp only [remapGo, Except.ok.injEq] at h
    rw [h]
  | cons k ks ih =>
    simp only [remapGo] at h
    split at h
    · exact ih t h
    · split at h
      · split at h
        · next hc =>
            rw [ih _ h, dictSet_keys_of_contains _ _ _ hc]
        · exact absurd h (by simp)
      · exact ih t h

theorem remapGo_lookup_untouched {α : Type} (ks : List Nat) (t t' : List (Nat × α))
    (h : remapGo ks t = .ok t') (k : Nat)
    (hk : ∀ u ∈ ks, pyIsUpper u = true → pyLower u ≠ k) :
    dictLookup t' k = dictLookup t k := by
  induction ks generalizing t with
  | nil =>
    simp only [remapGo, Except.ok.injEq] at h
    rw [h]
  | cons u ks ih =>
    simp only [remapGo] at h
    have hk' : ∀ w ∈ ks, pyIsUpper w = true → pyLower w ≠ k :=
      fun w hw => hk w (List.mem_cons_of_mem u hw)
    split at h
    · exact ih t h hk'
    · split at h
      · next hu =>
          split at h
          · have hne : pyLower u ≠ k := hk u (List.mem_cons_self u ks) hu
            rw [ih _ h hk', dictLookup_dictSet_ne _ _ _ _ (fun hh => hne hh.symm)]
          · exact absurd h (by simp)
      · exact ih t h hk'

/-- Index of the last pair in the assignment sequence that writes a given
character key, if any (proof-internal device for the last-wins lemma). -/
def lastWrite : List (Nat × Nat) → Nat → Option Nat
  | [], _ => none
  | p :: ps, c =>
    match lastWrite ps c with
    | some i => some i
    | none => if p.2 = c then some p.1 else none

theorem assignGo_false_lookup {α : Type} (sheet : List α) (ps : List (Nat × Nat))
    (t t' : List (Nat × α)) (h : assignGo false sheet ps t = .ok t') (c : Nat) :
    dictLookup t' c =
      match lastWrite ps c with
      | some i => sheet[i]?
      | none => dictLookup t c := by
  induction ps generalizing t with
  | nil =>
    simp only [assignGo, Except.ok.injEq] at h
    subst h
    simp [lastWrite]
  | cons p rest ih =>
    obtain ⟨idx, ch⟩ := p
    simp only [assignGo, Bool.false_and, Bool.false_eq_true, if_false] at h
    split at h
    · exact absurd h (by simp)
    · next tex hs =>
      have hrec := ih _ h
      cases hlw : lastWrite rest c with
      | some i =>
        rw [hrec]
        simp [lastWrite, hlw]
      | none =>
        rw [hrec]
        by_cases hch : ch = c
        · subst hch
          simp [lastWrite, hlw, dictLookup_dictSet_self, hs]
        · have hne : ¬ c = ch := fun hh => hch hh.symm
          simp [lastWrite, hlw, hch,
            dictLookup_dictSet_ne t ch c tex (fun hh => hch hh.symm)]

theorem assignGo_false_valid {α : Type} (sheet : List α) (ps : List (Nat × Nat))
    (t t' : List (Nat × α)) (h : assignGo false sheet ps t = .ok t') :
    ∀ p ∈ ps, p.1 < sheet.length := by
  induction ps generalizing t with
  | nil => simp
  | cons p rest ih =>
    obtain ⟨idx, ch⟩ := p
    simp only [assignGo, Bool.false_and, Bool.false_eq_true, if_false] at h
    split at h
    · exact absurd h (by simp)
    · next tex hs =>
      intro q hq
      rcases List.mem_cons.mp hq with rfl | hq'
      · by_contra hge
        push_neg at hge
        rw [List.getElem?_eq_none_iff.mpr hge] at hs
        exact absurd hs (by simp)
      · exact ih _ h q hq'

theorem mem_iff_getD (l : List Nat) (c : Nat) :
    c ∈ l ↔ ∃ j, j < l.length ∧ l.getD j 0 = c := by
  induction l with
  | nil => simp
  | cons ch rest ih =>
    constructor
    · intro h
      rcases List.mem_cons.mp h with h | h
      · exact ⟨0, by simp, by simp [← h]⟩
      · obtain ⟨j, hj1, hj2⟩ := ih.mp h
        exact ⟨j + 1, by simp only [List.length_cons]; omega, by simpa using hj2⟩
    · rintro ⟨j, hj1, hj2⟩
      cases j with
      | zero =>
        simp only [List.getD_cons_zero] at hj2
        exact List.mem_cons.mpr (Or.inl hj2.symm)
      | succ j =>
        have hj2' : rest.getD j 0 = c := by simpa using hj2
        have hj1' : j < rest.length := by
          simp only [List.length_cons] at hj1
          omega
        exact List.mem_cons_of_mem ch (ih.mpr ⟨j, hj1', hj2'⟩)

theorem lastWrite_pyEnumerate_none (flat : List Nat) (n c : Nat) :
    lastWrite (pyEnumerate n flat) c = none ↔ c ∉ flat := by
  induction flat generalizing n with
  | nil => simp [pyEnumerate, lastWrite]
  | cons ch rest ih =>
    simp only [pyEnumerate, lastWrite]
    cases hlw : lastWrite (pyEnumerate (n + 1) rest) c with
    | some i =>
      have hmem : c ∈ rest := by
        by_contra hc
        rw [(ih (n + 1)).mpr hc] at hlw
        exact absurd hlw (by simp)
      simp [hmem]
    | none =>
      have hnotm : c ∉ rest := (ih (n + 1)).mp hlw
      by_cases hch : ch = c
      · simp [hch, hnotm]
      · have hne : ¬ c = ch := fun hh => hch hh.symm
        simp [hch, hne, hnotm]

theorem lastWrite_pyEnumerate_last (flat : List Nat) (n c i : Nat)
    (hi : i < flat.length) (hc : flat.getD i 0 = c)
    (hlast : ∀ j, i < j → j < flat.length → flat.getD j 0 ≠ c) :
    lastWrite (pyEnumerate n flat) c = some (n + i) := by
  induction flat generalizing n i with
  | nil => simp at hi
  | cons ch rest ih =>
    cases i with
    | zero =>
      have hch : ch = c := by simpa using hc
      have hnot : c ∉ rest := by
        intro hmem
        obtain ⟨j, hj1, hj2⟩ := (mem_iff_getD rest c).mp hmem
        refine hlast (j + 1) (by omega) (by simp only [List.length_cons]; omega) ?_
        simpa using hj2
      have hlw : lastWrite (pyEnumerate (n + 1) rest) c = none :=
        (lastWrite_pyEnumerate_none rest (n + 1) c).mpr hnot
      simp [pyEnumerate, lastWrite, hlw, hch]
    | succ i' =>
      have hi' : i' < rest.length := by
        simp only [List.length_cons] at hi
        omega
      have hc' : rest.getD i' 0 = c := by simpa using hc
      have hlast' : ∀ j, i' < j → j < rest.length → rest.getD j 0 ≠ c := by
        intro j h1 h2
        have := hlast (j + 1) (by omega) (by simp only [List.length_cons]; omega)
        simpa using this
      have hrec := ih (n + 1) i' hi' hc' hlast'
      simp only [pyEnumerate, lastWrite, hrec]
      congr 1
      omega

theorem lastWrite_mem (ps : List (Nat × Nat)) (c i : Nat)
    (h : lastWrite ps c = some i) : (i, c) ∈ ps := by
  induction ps with
  | nil => simp [lastWrite] at h
  | cons p rest ih =>
    obtain ⟨idx, ch⟩ := p
    simp only [lastWrite] at h
    split at h
    · next j hlw =>
      obtain rfl : j = i := by injection h
      exact List.mem_cons_of_mem _ (ih hlw)
    · split at h
      · next hpc =>
        obtain rfl : idx = i := by injection h
        simp only [hpc] at *
        exact List.mem_cons_self _ _
      · exact absurd h (by simp)

theorem pyEnumerate_mem_snd {α : Type} (l : List α) (n : Nat) (p : Nat × α)
    (h : p ∈ pyEnumerate n l) : p.2 ∈ l := by
  induction l generalizing n with
  | nil => simp [pyEnumerate] at h
  | cons x xs ih =>
    simp only [pyEnumerate, List.mem_cons] at h
    rcases h with rfl | h
    · exact List.mem_cons_self _ _
    · exact List.mem_cons_of_mem x (ih (n + 1) h)

end Experimental

/-- C9: in the spritesheet builder with `map_lower_to_upper` off, a
character occurring at several indices of the flattened selection ends up
mapped to the sprite at the greatest such index (the last assignment
wins), and the key set of the returned table is exactly the set of
distinct characters of the flattened selection. -/
theorem load_monospace_last_assignment_wins {α : Type}
    (sheet : List α) (count : Int) (sel : PySelection) (check_lengths : Bool)
    (flat : PyStr) (t : List (Nat × α))
    (hflat : Experimental.flatten_glyph_selection sel = .ok flat)
    (hok : Experimental.load_monospace_spritesheet_font (.ok sheet) count sel
      check_lengths false = .ok t) :
    (∀ c, dictContains t c = true ↔ c ∈ flat) ∧
      ∀ i, i < flat.length →
        (∀ j, i < j → j < flat.length → flat.getD j 0 ≠ flat.getD i 0) →
        dictLookup t (flat.getD i 0) = sheet[i]? := by
  simp only [Experimental.load_monospace_spritesheet_font, hflat,
    Bool.false_eq_true, if_false] at hok
  split at hok
  · exact absurd hok (by simp)
  · split at hok
    · exact absurd hok (by simp)
    · next t0 ha =>
      obtain rfl : t0 = t := by injection hok
      have hlook := Experimental.assignGo_false_lookup sheet
        (Experimental.pyEnumerate 0 flat) [] _ ha
      constructor
      · intro c
        rw [dictContains, hlook c]
        cases hlw : Experimental.lastWrite (Experimental.pyEnumerate 0 flat) c with
        | none =>
          have hnm : c ∉ flat :=
            (Experimental.lastWrite_pyEnumerate_none flat 0 c).mp hlw
          simp [dictLookup, hnm]
        | some i =>
          have hm := Experimental.lastWrite_mem _ _ _ hlw
          have hmem : c ∈ flat := Experimental.pyEnumerate_mem_snd flat 0 (i, c) hm
          have hival : i < sheet.length :=
            Experimental.assignGo_false_valid sheet _ [] _ ha (i, c) hm
          have hsome : (sheet[i]?).isSome = true := by
            cases hg : sheet[i]? with
            | none =>
              have := List.getElem?_eq_none_iff.mp hg
              omega
            | some v => simp
          simp [hsome, hmem]
      · intro i hi hlast
        rw [hlook (flat.getD i 0),
          Experimental.lastWrite_pyEnumerate_last flat 0 (flat.getD i 0) i hi rfl hlast]
        simp

/-- Witness for C9: selection `"aba"` over the sheet `[10, 20, 30]`; the
character `a` (97) occurs at indices 0 and 2 and is mapped to sprite
index 2. -/
theorem load_monospace_last_assignment_wins_witness :
    Experimental.load_monospace_spritesheet_font (.ok [(10 : Nat), 20, 30]) 3
        (.str (pyStr "aba")) true false = .ok [(97, 30), (98, 20)] ∧
      dictLookup [(97, (30 : Nat)), (98, 20)] 97 = [(10 : Nat), 20, 30][2]? := by
  refine ⟨rfl, ?_⟩
  have h := load_monospace_last_assignment_wins [(10 : Nat), 20, 30] 3
    (.str (pyStr "aba")) true (pyStr "aba") [(97, 30), (98, 20)] rfl rfl
  refine h.2 2 (by decide) ?_
  intro j h1 h2
  have h3 : (pyStr "aba").length = 3 := rfl
  omega

/-- Numeric value of a hex digit character (decode direction for the
`pyHex` injectivity proof). -/
def hexCodeVal (c : Nat) : Nat := if c < 58 then c - 48 else c - 87

/-- Decode a little-endian hex digit string back to its value. -/
def decodeLE : List Nat → Nat
  | [] => 0
  | c :: cs => hexCodeVal c + 16 * decodeLE cs

theorem hexCodeVal_digitChar16 : ∀ k < 16, hexCodeVal (digitChar16 k) = k := by decide

theorem decodeLE_hexRevDigitsAux :
    ∀ fuel n, n ≤ fuel → decodeLE (hexRevDigitsAux fuel n) = n := by
  intro fuel
  induction fuel with
  | zero =>
    intro n hn
    obtain rfl : n = 0 := by omega
    rfl
  | succ f ih =>
    intro n hn
    cases n with
    | zero => rfl
    | succ m =>
      have hdiv : (m + 1) / 16 ≤ f := by
        have := Nat.div_lt_self (Nat.succ_pos m) (show 1 < 16 by norm_num)
        omega
      simp only [hexRevDigitsAux, decodeLE]
      rw [hexCodeVal_digitChar16 _ (Nat.mod_lt _ (by norm_num)), ih _ hdiv]
      exact Nat.mod_add_div (m + 1) 16

theorem decodeLE_hexRevDigits (n : Nat) : decodeLE (hexRevDigits n) = n :=
  decodeLE_hexRevDigitsAux n n le_rfl

theorem hexRevDigits_inj (m n : Nat) (h : hexRevDigits m = hexRevDigits n) :
    m = n := by
  have := congrArg decodeLE h
  rwa [decodeLE_hexRevDigits, decodeLE_hexRevDigits] at this

theorem pyHex_inj (m n : Nat) (h : pyHex m = pyHex n) : m = n := by
  have hx : (if m = 0 then [48] else (hexRevDigits m).reverse) =
      (if n = 0 then [48] else (hexRevDigits n).reverse) := by
    simpa [pyHex] using h
  by_cases hm : m = 0 <;> by_cases hn : n = 0
  · rw [hm, hn]
  · rw [if_pos hm, if_neg hn] at hx
    have hd : hexRevDigits n = [48] := by
      have := congrArg List.reverse hx
      simpa using this.symm
    have := decodeLE_hexRevDigits n
    rw [hd] at this
    simp [decodeLE, hexCodeVal] at this
    omega
  · rw [if_neg hm, if_pos hn] at hx
    have hd : hexRevDigits m = [48] := by
      have := congrArg List.reverse hx
      simpa using this
    have := decodeLE_hexRevDigits m
    rw [hd] at this
    simp [decodeLE, hexCodeVal] at this
    omega
  · rw [if_neg hm, if_neg hn] at hx
    exact hexRevDigits_inj m n (List.reverse_injective hx)

theorem hexRevDigitsAux_ge (fuel : Nat) :
    ∀ n, ∀ c ∈ hexRevDigitsAux fuel n, 48 ≤ c := by
  induction fuel with
  | zero =>
    intro n c hc
    cases n <;> simp [hexRevDigitsAux] at hc
  | succ f ih =>
    intro n c hc
    cases n with
    | zero => simp [hexRevDigitsAux] at hc
    | succ m =>
      simp only [hexRevDigitsAux, List.mem_cons] at hc
      rcases hc with rfl | hc
      · unfold digitChar16
        split <;> omega
      · exact ih _ c hc

theorem decRevDigitsAux_ge (fuel : Nat) :
    ∀ n, ∀ c ∈ decRevDigitsAux fuel n, 48 ≤ c := by
  induction fuel with
  | zero =>
    intro n c hc
    cases n <;> simp [decRevDigitsAux] at hc
  | succ f ih =>
    intro n c hc
    cases n with
    | zero => simp [decRevDigitsAux] at hc
    | succ m =>
      simp only [decRevDigitsAux, List.mem_cons] at hc
      rcases hc with rfl | hc
      · omega
      · exact ih _ c hc

theorem pyDec_ge (n : Nat) : ∀ c ∈ pyDec n, 48 ≤ c := by
  intro c hc
  unfold pyDec at hc
  split at hc
  · simp at hc
    omega
  · rw [List.mem_reverse] at hc
    exact decRevDigitsAux_ge n n c hc

/-- C8: the texture identifier built by `render_glyph_texture_from_system_font`
is deterministic in (character, font name, font size), injective in the
code point for a fixed font name and size, and the identifier for code
point 0 contains no literal null character (provided the font name itself
contains none — Python renders the code point as `hex(ord(glyph))`, never
embedding the raw character). -/
theorem render_glyph_identifier_spec {α : Type} (create_raw_text_image : Nat → α)
    (fn : PyStr) (fs : Nat) (hfn : 0 ∉ fn) :
    (∀ cp t1 t2,
        GuiElements.render_glyph_texture_from_system_font create_raw_text_image
          [cp] fn fs = .ok t1 →
        GuiElements.render_glyph_texture_from_system_font create_raw_text_image
          [cp] fn fs = .ok t2 → t1.name = t2.name) ∧
      (∀ cp1 cp2 t1 t2,
        GuiElements.render_glyph_texture_from_system_font create_raw_text_image
          [cp1] fn fs = .ok t1 →
        GuiElements.render_glyph_texture_from_system_font create_raw_text_image
          [cp2] fn fs = .ok t2 → t1.name = t2.name → cp1 = cp2) ∧
      (∀ t, GuiElements.render_glyph_texture_from_system_font create_raw_text_image
          [0] fn fs = .ok t → 0 ∉ t.name) := by
  refine ⟨?_, ?_, ?_⟩
  · intro cp t1 t2 h1 h2
    simp only [GuiElements.render_glyph_texture_from_system_font,
      Except.ok.injEq] at h1 h2
    rw [← h1, ← h2]
  · intro cp1 cp2 t1 t2 h1 h2 hname
    simp only [GuiElements.render_glyph_texture_from_system_font,
      Except.ok.injEq] at h1 h2
    rw [← h1, ← h2] at hname
    simp only [texName, List.append_assoc] at hname
    have s1 := List.append_cancel_left hname
    have s2 := List.append_cancel_left s1
    have s3 := List.append_cancel_left s2
    have s4 := List.append_cancel_left s3
    exact pyHex_inj cp1 cp2 s4
  · intro t ht hmem
    simp only [GuiElements.render_glyph_texture_from_system_font,
      Except.ok.injEq] at ht
    rw [← ht] at hmem
    have hhex : pyHex 0 = [48, 120, 48] := rfl
    simp only [texName, hhex, List.append_assoc] at hmem
    simp [List.mem_append, List.mem_cons] at hmem
    rcases hmem with h | h
    · exact hfn h
    · have := pyDec_ge fs 0 h
      omega

/-- Witness for C8 at font `"arial"`, size 16, code point 0: the produced
identifier `"arial-16-0x0"` contains no null character. -/
theorem render_glyph_identifier_spec_witness :
    0 ∉ pyStr "arial" ∧ 0 ∉ pyStr "arial-16-0x0" := by
  refine ⟨by decide, ?_⟩
  exact (render_glyph_identifier_spec (fun _ => (0 : Nat)) (pyStr "arial") 16
    (by decide)).2.2 ⟨pyStr "arial-16-0x0", 0⟩ rfl

theorem dictLookup_of_contains_false {α : Type} (t : List (Nat × α)) (k : Nat)
    (h : dictContains t k = false) : dictLookup t k = none := by
  unfold dictContains at h
  cases hl : dictLookup t k with
  | none => rfl
  | some v =>
    rw [hl] at h
    simp at h

theorem dictLookup_append {α : Type} (t1 t2 : List (Nat × α)) (k : Nat) :
    dictLookup (t1 ++ t2) k =
      match dictLookup t1 k with
      | some v => some v
      | none => dictLookup t2 k := by
  induction t1 with
  | nil => simp [dictLookup]
  | cons p rest ih =>
    obtain ⟨k0, v0⟩ := p
    by_cases h0 : k0 = k <;> simp [dictLookup, h0, ih]

theorem rangeLoop_ok {α : Type} (cr : Nat → α) (fn : PyStr) (fs : Nat) :
    ∀ (codes : List Int) (t0 : List (Nat × Texture α)),
      (∀ code ∈ codes, 0 ≤ code ∧ code < 1114112) →
      (∀ code ∈ codes, dictContains t0 code.toNat = false) →
      codes.Pairwise (fun a b => a.toNat ≠ b.toNat) →
      GuiElements.rangeLoop cr fn fs codes t0 =
        .ok (t0 ++ codes.map (fun code =>
          (code.toNat, ⟨texName fn fs code.toNat, cr code.toNat⟩))) := by
  intro codes
  induction codes with
  | nil =>
    intro t0 _ _ _
    simp [GuiElements.rangeLoop]
  | cons code rest ih =>
    intro t0 hvalid hfresh hnd
    have hv := hvalid code (List.mem_cons_self _ _)
    rcases List.pairwise_cons.mp hnd with ⟨hhead, hnd'⟩
    have hchr : GuiElements.pyChr code = .ok code.toNat := by
      simp [GuiElements.pyChr, hv.1, hv.2]
    simp only [GuiElements.rangeLoop, hchr,
      GuiElements.render_glyph_texture_from_system_font]
    rw [dictSet_of_not_contains _ _ _ (hfresh code (List.mem_cons_self _ _))]
    rw [ih _ ?_ ?_ hnd']
    · simp
    · exact fun c hc => hvalid c (List.mem_cons_of_mem _ hc)
    · intro c hc
      have h1 := hfresh c (List.mem_cons_of_mem _ hc)
      have h2 : code.toNat ≠ c.toNat := hhead c hc
      simp [dictContains, dictLookup_append, dictLookup_of_contains_false _ _ h1,
        dictLookup, h2]

theorem intRange_mem (start stop x : Int) :
    x ∈ GuiElements.intRange start stop ↔ start ≤ x ∧ x < stop := by
  simp only [GuiElements.intRange, List.mem_map, List.mem_range]
  constructor
  · rintro ⟨i, hi, rfl⟩
    omega
  · rintro ⟨h1, h2⟩
    exact ⟨(x - start).toNat, by omega, by omega⟩

theorem intRange_pairwise (start stop : Int) (h0 : 0 ≤ start) :
    (GuiElements.intRange start stop).Pairwise (fun a b => a.toNat ≠ b.toNat) := by
  unfold GuiElements.intRange
  refine List.Pairwise.map _ ?_ (List.pairwise_lt_range _)
  intro a b hab
  omega

theorem dictLookup_buildMap_mem {α : Type} (f : Int → Texture α)
    (codes : List Int) (code : Int) (hmem : code ∈ codes)
    (hnd : codes.Pairwise (fun a b => a.toNat ≠ b.toNat)) :
    dictLookup (codes.map (fun c => (c.toNat, f c))) code.toNat = some (f code) := by
  induction codes with
  | nil => simp at hmem
  | cons c0 rest ih =>
    rcases List.pairwise_cons.mp hnd with ⟨hhead, hnd'⟩
    rcases List.mem_cons.mp hmem with rfl | hmem'
    · simp [dictLookup]
    · have hne : c0.toNat ≠ code.toNat := hhead code hmem'
      simp [dictLookup, hne, ih hmem' hnd']

/-- C4 counterexample: with start = 1114112 and stop = 1114113 (a pair of
integers with 0 ≤ start < stop), the build raises `ValueError` instead of
returning a table, because `chr(1114112)` is out of Unicode range — so the
claim does not hold for every such pair. -/
theorem build_glyph_table_chr_overflow :
    ((0 : Int) ≤ 1114112 ∧ (1114112 : Int) < 1114113) ∧
      GuiElements.build_glyph_table_from_system_font (fun _ => (0 : Nat))
        (pyStr "arial") 16 [1114112, 1114113] = .error .valueError :=
  ⟨⟨by norm_num, by norm_num⟩, rfl⟩

/-- C4 amended: for every pair of integers with
0 ≤ start < stop ≤ 0x110000 (the bound forced by Python's `chr`), the
code-range builder returns a table with exactly `stop - start` entries
whose keys are exactly the code points in `[start, stop)`, each mapped to
the glyph texture rasterized for that character. -/
theorem build_glyph_table_code_range_spec {α : Type} (cr : Nat → α)
    (fn : PyStr) (fs : Nat) (start stop : Int)
    (h0 : 0 ≤ start) (hlt : start < stop) (hub : stop ≤ 1114112) :
    ∃ t, GuiElements.build_glyph_table_from_system_font cr fn fs [start, stop] =
        .ok t ∧
      (t.length : Int) = stop - start ∧
      (∀ c : Nat, dictContains t c = true ↔ start ≤ (c : Int) ∧ (c : Int) < stop) ∧
      (∀ c : Nat, start ≤ (c : Int) → (c : Int) < stop →
        ∃ tex, GuiElements.render_glyph_texture_from_system_font cr [c] fn fs =
            .ok tex ∧ dictLookup t c = some tex) := by
  have hvalid : ∀ code ∈ GuiElements.intRange start stop,
      0 ≤ code ∧ code < 1114112 := by
    intro code hc
    rw [intRange_mem] at hc
    omega
  have hnd := intRange_pairwise start stop h0
  have hloop := rangeLoop_ok cr fn fs (GuiElements.intRange start stop) []
    hvalid (fun _ _ => rfl) hnd
  refine ⟨(GuiElements.intRange start stop).map (fun code =>
    (code.toNat, ⟨texName fn fs code.toNat, cr code.toNat⟩)), ?_, ?_, ?_, ?_⟩
  · simp only [GuiElements.build_glyph_table_from_system_font]
    rw [if_neg (by omega), if_neg (by omega)]
    simpa using hloop
  · simp only [List.length_map, GuiElements.intRange, List.length_range]
    omega
  · intro c
    constructor
    · intro hc
      rw [dictContains_iff_mem_keys] at hc
      simp only [List.map_map, List.mem_map, Function.comp] at hc
      obtain ⟨code, hcode, hceq⟩ := hc
      rw [intRange_mem] at hcode
      omega
    · rintro ⟨hc1, hc2⟩
      have hmem : (c : Int) ∈ GuiElements.intRange start stop :=
        (intRange_mem start stop c).mpr ⟨hc1, hc2⟩
      have := dictLookup_buildMap_mem
        (fun code => ⟨texName fn fs code.toNat, cr code.toNat⟩)
        (GuiElements.intRange start stop) (c : Int) hmem hnd
      simp only [Int.toNat_natCast] at this
      simp [dictContains, this]
  · intro c hc1 hc2
    refine ⟨⟨texName fn fs c, cr c⟩, rfl, ?_⟩
    have hmem : (c : Int) ∈ GuiElements.intRange start stop :=
      (intRange_mem start stop c).mpr ⟨hc1, hc2⟩
    have := dictLookup_buildMap_mem
      (fun code => ⟨texName fn fs code.toNat, cr code.toNat⟩)
      (GuiElements.intRange start stop) (c : Int) hmem hnd
    simpa [Int.toNat_natCast] using this

/-- Witness for the amended C4 at the spec's own example range (0, 256):
the table exists, has 256 entries, one per code point 0..255. -/
theorem build_glyph_table_code_range_spec_witness :
    (0 : Int) ≤ 0 ∧ (0 : Int) < 256 ∧ (256 : Int) ≤ 1114112 ∧
      ∃ t, GuiElements.build_glyph_table_from_system_font (fun _ => (0 : Nat))
          (pyStr "arial") 16 [0, 256] = .ok t ∧
        (t.length : Int) = 256 - 0 ∧
        (∀ c : Nat, dictContains t c = true ↔
          (0 : Int) ≤ (c : Int) ∧ (c : Int) < 256) ∧
        (∀ c : Nat, (0 : Int) ≤ (c : Int) → (c : Int) < 256 →
          ∃ tex, GuiElements.render_glyph_texture_from_system_font
              (fun _ => (0 : Nat)) [c] (pyStr "arial") 16 = .ok tex ∧
            dictLookup t c = some tex) :=
  ⟨by norm_num, by norm_num, by norm_num,
    build_glyph_table_code_range_spec (fun _ => (0 : Nat)) (pyStr "arial") 16
      0 256 (by norm_num) (by norm_num) (by norm_num)⟩

/-- C1 (code-bug evidence): the font-rendering build path
(`experimental/gui/glyph_display.py`'s `build_glyph_table_from_system_font`)
accepts `map_lower_to_upper` but never uses it, so building with the flag
set and selection `"A"` yields a table containing key `"A"` (65) but not
key `"a"` (97) — the claimed lowercase-aliasing never runs there. The
spritesheet build path (`load_monospace_spritesheet_font`) does alias: the
same selection yields both keys, mapped to the same image handle. -/
theorem build_font_path_ignores_lowercase_flag :
    Experimental.build_glyph_table_from_system_font (fun _ => (0 : Nat))
        (pyStr "arial") 16 (.str (pyStr "A")) true =
      .ok [(65, ⟨pyStr "arial-16-0x41", 0⟩)] ∧
      Experimental.load_monospace_spritesheet_font (.ok [(7 : Nat)]) 1
        (.str (pyStr "A")) true true = .ok [(65, 7), (97, 7)] :=
  ⟨rfl, rfl⟩

/-- C3: with `check_lengths` enabled, a flattened selection whose length
differs from `count` makes `load_monospace_spritesheet_font` fail with
`ValueError` whatever the slicer would have produced — the result does
not depend on the `load_spritesheet` collaborator, so the slicer is never
consulted. -/
theorem load_monospace_length_guard {α : Type}
    (load_spritesheet : Except PyError (List α)) (count : Int)
    (sel : PySelection) (flat : PyStr) (map_lower_to_upper : Bool)
    (hflat : Experimental.flatten_glyph_selection sel = .ok flat)
    (hlen : (flat.length : Int) ≠ count) :
    Experimental.load_monospace_spritesheet_font load_spritesheet count sel
      true map_lower_to_upper = .error .valueError := by
  simp only [Experimental.load_monospace_spritesheet_font, hflat]
  simp [hlen]

/-- Witness for C3 at the spec's example: `count = 5` with selection
`"abcd"` (flattened length 4) fails, with an arbitrary slicer result. -/
theorem load_monospace_length_guard_witness :
    Experimental.flatten_glyph_selection (.str (pyStr "abcd")) = .ok (pyStr "abcd") ∧
      ((pyStr "abcd").length : Int) ≠ 5 ∧
      Experimental.load_monospace_spritesheet_font (.ok ([] : List Nat)) 5
        (.str (pyStr "abcd")) true false = .error .valueError :=
  ⟨rfl, by decide,
    load_monospace_length_guard (.ok ([] : List Nat)) 5 (.str (pyStr "abcd"))
      (pyStr "abcd") false rfl (by decide)⟩

/-- C10: whenever the lowercase-aliasing pass returns normally on a glyph
table over the module's Latin-1 glyph domain (every key at most 255, the
range of the default `ASCII_WITH_LATIN_1` selection, on which the
embedded case mapping is exact), the table's key list is unchanged (no
key removed, none added), and every key that is not the lowercase form of
some uppercase key present in the table keeps its binding — only
lowercase counterparts of uppercase keys can have been overwritten. -/
theorem remap_touches_only_lowercase_aliases {α : Type} (t t' : List (Nat × α))
    (hkeys : ∀ k ∈ t.map Prod.fst, k ≤ 255)
    (h : Experimental.remap_font_glyph_table_lowercase_to_upper t = .ok t') :
    t'.map Prod.fst = t.map Prod.fst ∧
      ∀ k, (¬ ∃ u, dictContains t u = true ∧ pyIsUpper u = true ∧ pyLower u = k) →
        dictLookup t' k = dictLookup t k := by
  refine ⟨Experimental.remapGo_keys _ _ _ h, ?_⟩
  intro k hnot
  refine Experimental.remapGo_lookup_untouched _ _ _ h k ?_
  intro u hu hup hlow
  exact hnot ⟨u, (dictContains_iff_mem_keys t u).mpr hu, hup, hlow⟩

/-- Witness for C10 on the Latin-1 table `À ↦ 0, à ↦ 1`: the pass returns
normally (`À` is uppercase and only overwrites the existing key `à`, as
CPython does), and the key `B` = 66, not being the lowercase form of any
uppercase key present, keeps its (absent) binding. -/
theorem remap_touches_only_lowercase_aliases_witness :
    (∀ k ∈ ([(192, (0 : Nat)), (224, 1)].map Prod.fst), k ≤ 255) ∧
      Experimental.remap_font_glyph_table_lowercase_to_upper
        [(192, (0 : Nat)), (224, 1)] = .ok [(192, 0), (224, 0)] ∧
      dictLookup [(192, (0 : Nat)), (224, 0)] 66 =
        dictLookup [(192, (0 : Nat)), (224, 1)] 66 := by
  have h := remap_touches_only_lowercase_aliases
    [(192, (0 : Nat)), (224, 1)] [(192, 0), (224, 0)] (by decide) rfl
  refine ⟨by decide, rfl, h.2 66 ?_⟩
  rintro ⟨u, hc, hup, hlow⟩
  simp only [pyIsUpper, decide_eq_true_eq] at hup
  unfold pyLower at hlow
  rw [if_pos hup] at hlow
  omega

end Arcade
